import Mathlib

set_option maxRecDepth 8000

/-!
Shallow embedding of the RAG documentation validator
(`tooling/validate-docs/validate.py`, `tooling/validate-docs/section-analyzer.py`)
and of the heading-cleanup utility (`remove_empty_headings.py`).

Python strings are modelled as `List Char`; every Python helper used by the
checks (`str.split`, `str.strip`, `str.find`, `re` patterns that are in fact
literal or near-literal) is translated explicitly below.
-/

/-- Character-list form of a Lean string literal (Python `str` values). -/
def pyStr (s : String) : List Char := s.data

/-- Python `str.isspace` / regex `\s` on the ASCII whitespace characters
(space, tab, newline, carriage return, vertical tab, form feed); the
documentation corpus is ASCII. -/
def py_isspace (c : Char) : Bool :=
  c == ' ' || c == '\t' || c == '\n' || c == '\r' || c == Char.ofNat 11 || c == Char.ofNat 12

/-- Python `str.strip()`: drop whitespace from both ends. -/
def pyStrip (cs : List Char) : List Char :=
  ((cs.dropWhile py_isspace).reverse.dropWhile py_isspace).reverse

/-- Leftmost index at which `pat` occurs in `cs` (Python `str.find`, as an `Option`). -/
def findSub (pat : List Char) : List Char → Option Nat
  | [] => if pat.isPrefixOf ([] : List Char) then some 0 else none
  | c :: t => if pat.isPrefixOf (c :: t) then some 0 else (findSub pat t).map (· + 1)

/-- The literal pattern of `re.split(r'\n## ', content)`. -/
def sectionDelim : List Char := ['\n', '#', '#', ' ']

/-- One step of `re.split(r'\n## ', content)`, with explicit fuel.
Each recursive call removes at least the four matched characters, so
`cs.length` units of fuel are never exhausted (see `splitParts`). -/
def splitPartsF : Nat → List Char → List (List Char)
  | 0, cs => [cs]
  | fuel + 1, cs =>
    match findSub sectionDelim cs with
    | none => [cs]
    | some p => cs.take p :: splitPartsF fuel (cs.drop (p + 4))

/-- `re.split(r'\n## ', content)`: the full list of parts, pre-heading prefix included. -/
def splitParts (cs : List Char) : List (List Char) := splitPartsF cs.length cs

/-- The section splitter shared by `_check_sections` (validate.py line 276) and
`analyze_file` (section-analyzer.py line 16): drop the part before the first
level-2 heading and re-attach the consumed `"## "` to each remaining part. -/
def split_into_sections (content : List Char) : List (List Char) :=
  (splitParts content).tail.map (fun s => ['#', '#', ' '] ++ s)

/-- Reassemble split parts, reinserting the consumed delimiter. -/
def joinParts : List (List Char) → List Char
  | [] => []
  | p :: ps => p ++ (ps.map (fun q => sectionDelim ++ q)).flatten

/-- Issue severities (`ValidationIssue.level`). -/
inductive Lv where
  | FAIL
  | WARN
  | INFO
deriving DecidableEq, Repr

/-- A `ValidationIssue` record.  The free-text `message` of the Python record is
not modelled; `data` carries the claim-relevant payload that the message and
`details` fields interpolate (e.g. the missing frontmatter field names), and
`lineNumber` mirrors `line_number`. -/
structure Issue where
  level : Lv
  check : String
  lineNumber : Option Nat := none
  data : List String := []
deriving DecidableEq, Repr

/-- Number of issues carrying a given check identifier. -/
def countCheck (c : String) (issues : List Issue) : Nat :=
  (issues.filter (fun i => i.check == c)).length

/-- `MAX_SECTION_LENGTH` (validate.py line 25). -/
def MAX_SECTION_LENGTH : Nat := 1500

/-- `CODE_BLOCK_LONG_THRESHOLD` (validate.py line 28). -/
def CODE_BLOCK_LONG_THRESHOLD : Nat := 10

/-- Python `content.split('\n')`, accumulator form. -/
def splitNlAux : List Char → List Char → List (List Char)
  | [], acc => [acc.reverse]
  | c :: t, acc => if c = '\n' then acc.reverse :: splitNlAux t [] else splitNlAux t (c :: acc)

/-- Python `content.split('\n')`. -/
def splitNl (cs : List Char) : List (List Char) := splitNlAux cs []

/-- Python `'\n'.join(lines)`. -/
def joinNl : List (List Char) → List Char
  | [] => []
  | [l] => l
  | l :: ls => l ++ '\n' :: joinNl ls

/-- The words of `PRONOUN_PATTERN = re.compile(r'^(It|This|These|They|That|We)\s', ...)`
(validate.py line 38). -/
def PRONOUN_WORDS : List (List Char) :=
  [pyStr "It", pyStr "This", pyStr "These", pyStr "They", pyStr "That", pyStr "We"]

/-- `PRONOUN_PATTERN.match(s)` succeeds: `s` begins with one of the six
case-sensitive pronoun words immediately followed by a whitespace character
(the pattern is anchored at the start of the tested string). -/
def pronounMatch (s : List Char) : Bool :=
  PRONOUN_WORDS.any (fun w =>
    w.isPrefixOf s &&
      (match s.drop w.length with
       | c :: _ => py_isspace c
       | [] => false))

/-- The per-section pronoun condition of `_check_sections` (validate.py lines
303-314): join the lines after the heading, strip, and when non-empty test the
stripped first line against the pronoun pattern. -/
def sectionPronounFlag (s : List Char) : Bool :=
  let body := pyStrip (joinNl ((splitNl s).tail))
  !body.isEmpty && pronounMatch (pyStrip (body.takeWhile (fun c => !(c == '\n'))))

/-- `re.findall(r'```[\s\S]*?```', section)` with explicit fuel: find the next
triple-backtick, then the earliest closing triple-backtick after it (the
non-greedy match), emit the block including both markers and continue after it.
Every iteration consumes at least six characters, so `cs.length` units of fuel
are never exhausted. -/
def codeBlocksScanF : Nat → List Char → List (List Char)
  | 0, _ => []
  | fuel + 1, cs =>
    match findSub (pyStr "```") cs with
    | none => []
    | some p =>
      let afterOpen := cs.drop (p + 3)
      match findSub (pyStr "```") afterOpen with
      | none => []
      | some q =>
        (pyStr "```" ++ afterOpen.take q ++ pyStr "```") :: codeBlocksScanF fuel (afterOpen.drop (q + 3))

/-- All fenced code blocks of a section, in textual order. -/
def codeBlocksScan (cs : List Char) : List (List Char) := codeBlocksScanF cs.length cs

/-- `_check_code_blocks_in_section` (validate.py lines 325-346): a long code
block (more than `CODE_BLOCK_LONG_THRESHOLD` newlines) triggers a warning when
the 200 stripped characters preceding its first occurrence contain no `'\n### '`.
The `none` branch mirrors Python's `str.find` returning `-1` (slice `[:-1]`);
it is unreachable because every found block occurs in the section. -/
def codeBlockNeedsWarn (s b : List Char) : Bool :=
  let pos := match findSub b s with
    | some p => p
    | none => s.length - 1
  let before := pyStrip (s.take pos)
  let recent := before.drop (before.length - 200)
  !(findSub (pyStr "\n### ") recent).isSome

/-- The long code blocks of a section that lack a nearby `###` subsection. -/
def codeWarnBlocks (s : List Char) : List (List Char) :=
  (codeBlocksScan s).filter
    (fun b => decide (CODE_BLOCK_LONG_THRESHOLD < b.count '\n') && codeBlockNeedsWarn s b)

/-- Per-section issues of `_check_sections` (validate.py lines 288-317), in
check-execution order: length, pronoun lead, long code blocks.  The argument is
the reconstructed section text `'## ' + part`. -/
def sectionIssues (s : List Char) : List Issue :=
  let title := (splitNl s).headD []
  (if MAX_SECTION_LENGTH < s.length
    then [⟨.FAIL, "section_length", none, [String.mk title]⟩] else [])
  ++ (if sectionPronounFlag s
    then [⟨.FAIL, "section_pronoun", none, [String.mk title]⟩] else [])
  ++ (codeWarnBlocks s).map (fun _ => ⟨.WARN, "code_block_subsection", none, [String.mk title]⟩)

/-- Length of the leading run of `'#'` characters (`re.match(r'^#+', line)`). -/
def hashRun : List Char → Nat
  | '#' :: t => hashRun t + 1
  | _ => 0

/-- Python `line.startswith('#')`. -/
def startsHash : List Char → Bool
  | '#' :: _ => true
  | _ => false

/-- One attempted match of `r'(#{2,4}[^\n]+\n)\s*```'` (validate.py line 351) at
the head of `cs`.  Accounting for backtracking, the regex matches here exactly
when the head line starts with at least two `#`, is at least three characters
long (so `[^\n]+` is non-empty for the two-hash alternative), is terminated by
a newline, and the whitespace run after that newline is immediately followed by
a triple backtick.  Returns the stripped captured heading line (as reported in
the issue details) and the length of the whole match. -/
def bareMatchAt (cs : List Char) : Option (List Char × Nat) :=
  if 2 ≤ hashRun cs then
    let line := cs.takeWhile (fun c => !(c == '\n'))
    if 3 ≤ line.length && line.length < cs.length then
      let afterNl := cs.drop (line.length + 1)
      let ws := afterNl.takeWhile py_isspace
      if (pyStr "```").isPrefixOf (afterNl.drop ws.length) then
        some (pyStrip line, line.length + 1 + ws.length + 3)
      else none
    else none
  else none

/-- `re.finditer` of the bare-code-block pattern: leftmost matches, scanning
resumes after each match.  Every step consumes at least one character, so
`cs.length` units of fuel are exactly enough. -/
def bareScanF : Nat → List Char → List (List Char)
  | 0, _ => []
  | _ + 1, [] => []
  | fuel + 1, c :: t =>
    match bareMatchAt (c :: t) with
    | some (hd, len) => hd :: bareScanF fuel ((c :: t).drop len)
    | none => bareScanF fuel t

/-- All bare-code-block matches of `_check_bare_code_blocks` (validate.py lines 348-361). -/
def bareScan (cs : List Char) : List (List Char) := bareScanF cs.length cs

/-- The issues emitted by `_check_bare_code_blocks`. -/
def bareCodeBlockIssues (content : List Char) : List Issue :=
  (bareScan content).map (fun hd => ⟨.WARN, "bare_code_block", none, [String.mk hd]⟩)

/-- `_check_heading_hierarchy` (validate.py lines 363-383): walk the lines with
their 1-based numbers, keep the previous heading level (seeded at 1), record
`(line number, previous level, level)` whenever a heading's level exceeds the
previous level plus one, and update the previous level after every heading
regardless of whether a warning fired. -/
def hierAux : List (List Char) → Nat → Nat → List (Nat × Nat × Nat)
  | [], _, _ => []
  | l :: rest, n, prev =>
    if startsHash l then
      (if prev + 1 < hashRun l then [(n, prev, hashRun l)] else [])
        ++ hierAux rest (n + 1) (hashRun l)
    else hierAux rest (n + 1) prev

/-- The issues emitted by `_check_heading_hierarchy`. -/
def checkHeadingHierarchy (content : List Char) : List Issue :=
  (hierAux (splitNl content) 1 1).map (fun w => ⟨.WARN, "heading_hierarchy", some w.1, []⟩)

/-- The single warning of `_check_sections` when no `## ` section exists. -/
def sectionsExistIssue : Issue := ⟨.WARN, "sections_exist", none, []⟩

/-- `_check_sections` (validate.py lines 273-323).  Python tests
`len(sections) < 2` on the raw split parts (whose head is the pre-heading
prefix and always exists), which is equivalent to `split_into_sections` being
empty; in that case the function appends the single `sections_exist` warning
and returns at once.  Otherwise the per-section checks run in order over the
reconstructed sections, then the two whole-document checks. -/
def check_sections (content : List Char) : List Issue :=
  if (split_into_sections content).isEmpty then [sectionsExistIssue]
  else ((split_into_sections content).map sectionIssues).flatten
    ++ bareCodeBlockIssues content
    ++ checkHeadingHierarchy content

/-- A document whose single section's body leads with a pronoun. -/
def docPronounHit : List Char := pyStr "x\n## Alpha\nThis is a test.\n"

/-- A document whose single section's body does not lead with a pronoun. -/
def docPronounMiss : List Char := pyStr "x\n## Alpha\nThe test covers everything.\n"

/-- A document with zero level-2 sections but a skipped heading level. -/
def docNoSections : List Char := pyStr "# T\n#### X\n"

/-- Heading sequence `#`, `##`, `####` (level 3 skipped). -/
def docSkipLevel : List Char := pyStr "# A\n## B\n#### C\n"

/-- Heading sequence `#`, `##`, `###`, `####` (no skip). -/
def docNoSkip : List Char := pyStr "# A\n## B\n### C\n#### D\n"

/-- A document whose only section is well inside the length limit. -/
def docShortSections : List Char := pyStr "x\n## T\nshort body\n"

/-- The 1501-character section of `docLongSection`. -/
def sectionLong : List Char := '#' :: '#' :: ' ' :: 'T' :: '\n' :: List.replicate 1496 'a'

/-- A document whose single section is exactly 1501 characters long. -/
def docLongSection : List Char :=
  pyStr "intro" ++ '\n' :: '#' :: '#' :: ' ' :: 'T' :: '\n' :: List.replicate 1496 'a'

/-- Heading levels of the document's lines in order (level = number of leading
hash marks), the sequence walked by `_check_heading_hierarchy`. -/
def headingLevels (content : List Char) : List Nat :=
  (splitNl content).filterMap (fun l => if startsHash l then some (hashRun l) else none)

/-- The counting rule of the claim: one warning for each heading whose level
exceeds the previous heading's level plus one, with the previous level seeded
at 1 and updated after every heading regardless of whether a warning fired. -/
def countSkips : Nat → List Nat → Nat
  | _, [] => 0
  | prev, l :: ls => (if prev + 1 < l then 1 else 0) + countSkips l ls

/-- A parsed YAML scalar or list as the frontmatter schema checks inspect it
(the YAML library itself is an external collaborator; parsing is an oracle
argument of `check_frontmatter`). -/
inductive YVal where
  | s (v : String)
  | l (vs : List String)
deriving DecidableEq

/-- A parsed frontmatter mapping (`yaml.safe_load` result when it is a dict). -/
abbrev Fm := List (String × YVal)

/-- `REQUIRED_FRONTMATTER` (validate.py lines 41-45), in source order. -/
def REQUIRED_FRONTMATTER : List String :=
  ["title", "category", "subcategory", "tags", "stack",
   "priority", "audience", "complexity", "doc_type",
   "source_confidence", "last_updated"]

/-- `VALID_STACKS` (validate.py line 31). -/
def VALID_STACKS : List String := ["js-nextjs", "sanity", "php-wp", "cross-stack"]

/-- `VALID_PRIORITIES` (validate.py line 32). -/
def VALID_PRIORITIES : List String := ["high", "medium", "low"]

/-- `VALID_AUDIENCES` (validate.py line 33). -/
def VALID_AUDIENCES : List String := ["frontend", "backend", "fullstack"]

/-- `VALID_COMPLEXITIES` (validate.py line 34). -/
def VALID_COMPLEXITIES : List String := ["beginner", "intermediate", "advanced"]

/-- `VALID_DOC_TYPES` (validate.py line 35).  Defined in the source but never
consulted by any check: `doc_type` has no enum validation. -/
def VALID_DOC_TYPES : List String := ["standard", "guide", "reference", "decision"]

/-- `re.match(r'^\d+%$', str(v))` (validate.py line 238): one or more digits
then a percent sign ending the string (Python `$` also matches just before one
final trailing newline).  `str()` of a YAML list starts with `'['` and can
never match, hence the `false` in that branch. -/
def confMatch (cs : List Char) : Bool :=
  let ds := cs.takeWhile Char.isDigit
  let rest := cs.drop ds.length
  !ds.isEmpty && (rest == ['%'] || rest == ['%', '\n'])

/-- Gregorian leap year (as `datetime` uses). -/
def isLeap (y : Nat) : Bool := (y % 4 == 0 && !(y % 100 == 0)) || y % 400 == 0

/-- Days in a month, as validated by the external `datetime` library. -/
def daysInMonth (y m : Nat) : Nat :=
  if m == 2 then (if isLeap y then 29 else 28)
  else if m == 4 || m == 6 || m == 9 || m == 11 then 30 else 31

/-- The external `datetime.fromisoformat` oracle (validate.py line 249),
modelled for the `YYYY-MM-DD` date form that the spec requires of
`last_updated`: ten characters, digits and two hyphens in place, month 1-12,
day valid for the (leap-aware) month, year at least 1. -/
def isoDateOk : List Char → Bool
  | [y1, y2, y3, y4, h1, m1, m2, h2, d1, d2] =>
    y1.isDigit && y2.isDigit && y3.isDigit && y4.isDigit &&
    m1.isDigit && m2.isDigit && d1.isDigit && d2.isDigit &&
    h1 == '-' && h2 == '-' &&
    (let y := 1000 * (y1.toNat - 48) + 100 * (y2.toNat - 48) + 10 * (y3.toNat - 48) + (y4.toNat - 48)
     let m := 10 * (m1.toNat - 48) + (m2.toNat - 48)
     let d := 10 * (d1.toNat - 48) + (d2.toNat - 48)
     decide (1 ≤ y) && decide (1 ≤ m) && decide (m ≤ 12) &&
     decide (1 ≤ d) && decide (d ≤ daysInMonth y m))
  | _ => false

/-- The enum-field pattern shared by the four checks at validate.py lines
207-233: if the key is present and its value is not in the allowed set, one
FAIL (a non-string YAML value is never equal to any of the allowed strings). -/
def enumIssue (fm : Fm) (key : String) (valid : List String) (cid : String) : List Issue :=
  match fm.lookup key with
  | none => []
  | some v =>
    if (match v with | .s str => valid.contains str | .l _ => false)
    then []
    else [⟨.FAIL, cid, none, [match v with | .s str => str | .l _ => ""]⟩]

/-- Missing required fields (validate.py lines 197-204): one FAIL listing all
missing keys. -/
def requiredFieldIssues (fm : Fm) : List Issue :=
  if (REQUIRED_FRONTMATTER.filter (fun k => (fm.lookup k).isNone)).isEmpty then []
  else [⟨.FAIL, "frontmatter_required_fields", none,
        REQUIRED_FRONTMATTER.filter (fun k => (fm.lookup k).isNone)⟩]

/-- `source_confidence` format check (validate.py lines 236-243). -/
def confidenceIssues (fm : Fm) : List Issue :=
  match fm.lookup "source_confidence" with
  | none => []
  | some v =>
    if (match v with | .s str => confMatch str.data | .l _ => false)
    then []
    else [⟨.FAIL, "frontmatter_confidence", none, []⟩]

/-- `last_updated` ISO-date check (validate.py lines 246-255). -/
def dateIssues (fm : Fm) : List Issue :=
  match fm.lookup "last_updated" with
  | none => []
  | some v =>
    if (match v with | .s str => isoDateOk str.data | .l _ => false)
    then []
    else [⟨.FAIL, "frontmatter_date", none, []⟩]

/-- `tags` type-and-non-emptiness check (validate.py lines 258-271). -/
def tagsIssues (fm : Fm) : List Issue :=
  match fm.lookup "tags" with
  | none => []
  | some (.l vs) => if vs.isEmpty then [⟨.FAIL, "frontmatter_tags", none, []⟩] else []
  | some (.s _) => [⟨.FAIL, "frontmatter_tags", none, []⟩]

/-- All schema checks run after a successful parse (validate.py lines 197-271),
in source order; every check appends independently. -/
def frontmatterFieldIssues (fm : Fm) : List Issue :=
  requiredFieldIssues fm
  ++ enumIssue fm "stack" VALID_STACKS "frontmatter_stack"
  ++ enumIssue fm "priority" VALID_PRIORITIES "frontmatter_priority"
  ++ enumIssue fm "audience" VALID_AUDIENCES "frontmatter_audience"
  ++ enumIssue fm "complexity" VALID_COMPLEXITIES "frontmatter_complexity"
  ++ confidenceIssues fm
  ++ dateIssues fm
  ++ tagsIssues fm

/-- The line-break characters of Python `str.splitlines`. -/
def isLineBreak (c : Char) : Bool :=
  c == '\n' || c == '\r' || c == Char.ofNat 11 || c == Char.ofNat 12 ||
  c == Char.ofNat 28 || c == Char.ofNat 29 || c == Char.ofNat 30 ||
  c == Char.ofNat 133 || c == Char.ofNat 8232 || c == Char.ofNat 8233

/-- `lines[0]` for `lines = content.splitlines()` and nonempty content: the
characters before the first line break. -/
def firstLine (cs : List Char) : List Char := cs.takeWhile (fun c => !(isLineBreak c))

/-- `content.find('---', 3)` (validate.py line 169). -/
def findFrom3 (content : List Char) : Option Nat :=
  (findSub (pyStr "---") (content.drop 3)).map (· + 3)

/-- `_check_frontmatter` (validate.py lines 144-271), with the YAML library as
an oracle (`none` covers both a `YAMLError` and a non-dict result — the two
paths that emit the same `frontmatter_parse` FAIL).  The Python guard
`if lines and ...` needs no separate case: content that reaches the second
branch starts with `---` and is nonempty. -/
def check_frontmatter (parseYaml : List Char → Option Fm) (content : List Char) : List Issue :=
  if (pyStr "---").isPrefixOf content then
    if (pyStr "# ").isPrefixOf (firstLine content) then
      [⟨.FAIL, "frontmatter_h1_before", some 1, []⟩]
    else
      match findFrom3 content with
      | none => [⟨.FAIL, "frontmatter_end", none, []⟩]
      | some d =>
        match parseYaml (pyStrip ((content.drop 3).take (d - 3))) with
        | none => [⟨.FAIL, "frontmatter_parse", none, []⟩]
        | some fm => frontmatterFieldIssues fm
  else [⟨.FAIL, "frontmatter_start", some 1, []⟩]

/-- The C7 frontmatter: all required keys present and valid except `tags`
(missing) and `stack` (invalid value). -/
def fmMissingTagsBadStack : Fm :=
  [("title", .s "T"), ("category", .s "c"), ("subcategory", .s "sc"),
   ("stack", .s "invalid-value"), ("priority", .s "high"),
   ("audience", .s "frontend"), ("complexity", .s "beginner"),
   ("doc_type", .s "standard"), ("source_confidence", .s "85%"),
   ("last_updated", .s "2024-01-01")]

/-- A well-formed frontmatter block around the oracle text `FM`. -/
def docFm : List Char := pyStr "---\nFM\n---\nrest"

/-- Oracle standing for `yaml.safe_load`: maps the extracted text of `docFm`
to `fmMissingTagsBadStack`. -/
def parseFmOracle : List Char → Option Fm :=
  fun s => if s == pyStr "FM" then some fmMissingTagsBadStack else none

/-- `re.match(r'^## ', line)` (remove_empty_headings.py lines 24, 34, 52, 61). -/
def isH2 : List Char → Bool
  | '#' :: '#' :: ' ' :: _ => true
  | _ => false

/-- `line.strip() == ''` (remove_empty_headings.py lines 30, 57). -/
def isBlank (l : List Char) : Bool := l.all py_isspace

/-- The shared look-ahead of `find_empty_headings` (lines 24-35) and
`remove_empty_headings` (lines 52-62): the line is a `## ` heading and,
skipping blank lines, the next non-blank line is itself a `## ` heading;
reaching end of file first leaves the heading alone. -/
def condRemove (l : List Char) (rest : List (List Char)) : Bool :=
  isH2 l &&
    (match rest.find? (fun x => !(isBlank x)) with
     | some nb => isH2 nb
     | none => false)

/-- The removal predicate at index `i` of the original line list. -/
def emptyHeadingAt (lines : List (List Char)) (i : Nat) : Bool :=
  condRemove (lines.getD i []) (lines.drop (i + 1))

/-- `find_empty_headings` (remove_empty_headings.py lines 14-39): 1-based line
numbers and texts of the empty headings, in order. -/
def find_empty_headings (content : List Char) : List (Nat × List Char) :=
  ((List.range (splitNl content).length).filter
      (fun i => emptyHeadingAt (splitNl content) i)).map
    (fun i => (i + 1, (splitNl content).getD i []))

/-- `remove_empty_headings` (remove_empty_headings.py lines 42-69): the joined
kept lines and the number of removed line indices. -/
def remove_empty_headings (content : List Char) : List Char × Nat :=
  (joinNl (((List.range (splitNl content).length).filter
      (fun i => !(emptyHeadingAt (splitNl content) i))).map
      (fun i => (splitNl content).getD i [])),
   ((List.range (splitNl content).length).filter
      (fun i => emptyHeadingAt (splitNl content) i)).length)

/-- Left-to-right sweep form of the removal pass; it equals the Python
mark-then-filter formulation because each decision reads only later lines
(`removeRec_eq_filter`). -/
def removeRec : List (List Char) → List (List Char)
  | [] => []
  | l :: rest => if condRemove l rest then removeRec rest else l :: removeRec rest

/-- A document whose final `## ` heading is followed only by blank lines. -/
def docTrailingHeading : List Char := pyStr "x\n## End\n\n"

/-- A document whose first `## ` heading has body text before the next one. -/
def docKeptHeading : List Char := pyStr "## A\ntext\n## B"

theorem findSub_bound {pat cs : List Char} {p : Nat} (h : findSub pat cs = some p) :
    p + pat.length ≤ cs.length := by
  induction cs generalizing p with
  | nil =>
    unfold findSub at h
    split at h
    · rename_i hpre
      simp only [Option.some.injEq] at h
      subst h
      have := List.isPrefixOf_iff_prefix.mp hpre
      simpa using this.length_le
    · exact absurd h (by simp)
  | cons c t ih =>
    unfold findSub at h
    split at h
    · rename_i hpre
      simp only [Option.some.injEq] at h
      subst h
      have := List.isPrefixOf_iff_prefix.mp hpre
      simpa using this.length_le
    · simp only [Option.map_eq_some'] at h
      obtain ⟨q, hq, rfl⟩ := h
      have := ih hq
      simp only [List.length_cons]
      omega

theorem findSub_decomp {pat cs : List Char} {p : Nat} (h : findSub pat cs = some p) :
    cs = cs.take p ++ pat ++ cs.drop (p + pat.length) := by
  induction cs generalizing p with
  | nil =>
    unfold findSub at h
    split at h
    · rename_i hpre
      simp only [Option.some.injEq] at h
      subst h
      have := List.isPrefixOf_iff_prefix.mp hpre
      obtain ⟨u, hu⟩ := this
      simp only [List.nil_eq, List.append_eq_nil] at hu
      simp [hu.1]
    · exact absurd h (by simp)
  | cons c t ih =>
    unfold findSub at h
    split at h
    · rename_i hpre
      simp only [Option.some.injEq] at h
      subst h
      obtain ⟨u, hu⟩ := List.isPrefixOf_iff_prefix.mp hpre
      conv_lhs => rw [← hu]
      simp [← hu, List.drop_left]
    · simp only [Option.map_eq_some'] at h
      obtain ⟨q, hq, rfl⟩ := h
      have := ih hq
      calc c :: t = c :: (t.take q ++ pat ++ t.drop (q + pat.length)) := by rw [← this]
        _ = (c :: t).take (q + 1) ++ pat ++ (c :: t).drop (q + 1 + pat.length) := by
          rw [Nat.add_right_comm, List.drop_succ_cons, List.take_succ_cons]
          simp [List.cons_append, List.append_assoc]

theorem splitPartsF_ne_nil (fuel : Nat) (cs : List Char) : splitPartsF fuel cs ≠ [] := by
  cases fuel with
  | zero => simp [splitPartsF]
  | succ n =>
    unfold splitPartsF
    cases findSub sectionDelim cs <;> simp

theorem joinParts_cons_delim (ps : List (List Char)) (hne : ps ≠ []) :
    (ps.map (fun q => sectionDelim ++ q)).flatten = sectionDelim ++ joinParts ps := by
  cases ps with
  | nil => exact absurd rfl hne
  | cons q qs => simp [joinParts, List.append_assoc]

theorem joinParts_splitPartsF (fuel : Nat) :
    ∀ cs : List Char, cs.length ≤ fuel → joinParts (splitPartsF fuel cs) = cs := by
  induction fuel with
  | zero =>
    intro cs h
    have : cs = [] := List.eq_nil_of_length_eq_zero (Nat.le_zero.mp h)
    subst this
    simp [splitPartsF, joinParts]
  | succ n ih =>
    intro cs h
    unfold splitPartsF
    cases hfind : findSub sectionDelim cs with
    | none => simp [joinParts]
    | some p =>
      have hb := findSub_bound hfind
      simp only [sectionDelim, List.length_cons] at hb
      have hlen : (cs.drop (p + 4)).length ≤ n := by
        simp only [List.length_drop]
        omega
      simp only [joinParts]
      rw [joinParts_cons_delim _ (splitPartsF_ne_nil _ _), ih _ hlen]
      have := findSub_decomp hfind
      conv_rhs => rw [this]
      simp [sectionDelim, List.append_assoc]

theorem joinParts_splitParts (cs : List Char) : joinParts (splitParts cs) = cs :=
  joinParts_splitPartsF cs.length cs (Nat.le_refl _)

theorem flatten_sublist_newline_flatten (l : List (List Char)) :
    l.flatten.Sublist ((l.map (fun s => '\n' :: s)).flatten) := by
  induction l with
  | nil => simp
  | cons s t ih =>
    simp only [List.flatten_cons, List.map_cons]
    exact List.Sublist.append (List.sublist_cons_self _ _) ih

theorem countCheck_append (c : String) (l₁ l₂ : List Issue) :
    countCheck c (l₁ ++ l₂) = countCheck c l₁ + countCheck c l₂ := by
  simp [countCheck, List.filter_append]

theorem countCheck_map_ne {α : Type} (c : String) (f : α → Issue) (xs : List α)
    (h : ∀ x, (f x).check ≠ c) :
    countCheck c (xs.map f) = 0 := by
  simp only [countCheck, List.length_eq_zero, List.filter_eq_nil_iff]
  intro i hi
  obtain ⟨x, _, rfl⟩ := List.mem_map.mp hi
  simpa using h x

theorem countCheck_flatten_map (c : String) (f : List Char → List Issue) (p : List Char → Bool)
    (hf : ∀ s, countCheck c (f s) = if p s then 1 else 0) (secs : List (List Char)) :
    countCheck c ((secs.map f).flatten) = secs.countP p := by
  induction secs with
  | nil => rfl
  | cons s t ih =>
    simp only [List.map_cons, List.flatten_cons, countCheck_append, ih, hf s, List.countP_cons]
    cases hp : p s
    all_goals simp [hp]
    all_goals omega

theorem countCheck_section_length (s : List Char) :
    countCheck "section_length" (sectionIssues s)
      = if MAX_SECTION_LENGTH < s.length then 1 else 0 := by
  unfold sectionIssues
  rw [countCheck_append, countCheck_append,
    countCheck_map_ne _ _ _ (fun x => by simp)]
  by_cases h1 : MAX_SECTION_LENGTH < s.length
  all_goals cases hp : sectionPronounFlag s
  all_goals simp [h1, hp, countCheck]

theorem countCheck_section_pronoun (s : List Char) :
    countCheck "section_pronoun" (sectionIssues s)
      = if sectionPronounFlag s then 1 else 0 := by
  unfold sectionIssues
  rw [countCheck_append, countCheck_append,
    countCheck_map_ne _ _ _ (fun x => by simp)]
  by_cases h1 : MAX_SECTION_LENGTH < s.length
  all_goals cases hp : sectionPronounFlag s
  all_goals simp [h1, hp, countCheck]

theorem countCheck_check_sections (c : String) (p : List Char → Bool)
    (hsec : ∀ s, countCheck c (sectionIssues s) = if p s then 1 else 0)
    (hex : c ≠ "sections_exist") (hbare : c ≠ "bare_code_block")
    (hhier : c ≠ "heading_hierarchy") (content : List Char) :
    countCheck c (check_sections content) = (split_into_sections content).countP p := by
  unfold check_sections
  by_cases he : (split_into_sections content).isEmpty
  · rw [if_pos he, List.isEmpty_iff.mp he]
    simp [countCheck, sectionsExistIssue, List.filter_cons, Ne.symm hex]
  · rw [if_neg he, countCheck_append, countCheck_append,
      countCheck_flatten_map c sectionIssues p hsec,
      bareCodeBlockIssues, checkHeadingHierarchy,
      countCheck_map_ne _ _ _ (fun x => Ne.symm hbare),
      countCheck_map_ne _ _ _ (fun x => Ne.symm hhier)]
    omega

theorem hierAux_length (ls : List (List Char)) :
    ∀ n prev, (hierAux ls n prev).length
      = countSkips prev (ls.filterMap (fun l => if startsHash l then some (hashRun l) else none)) := by
  induction ls with
  | nil =>
    intro n prev
    rfl
  | cons l rest ih =>
    intro n prev
    by_cases hs : startsHash l
    · simp only [hierAux, if_pos hs, List.filterMap_cons, hs, if_true, countSkips,
        List.length_append, ih]
      by_cases hlt : prev + 1 < hashRun l
      all_goals simp [hlt]
    · simp [hierAux, hs, ih]

theorem enumIssue_check (fm : Fm) (key : String) (valid : List String) (cid : String) :
    ∀ i ∈ enumIssue fm key valid cid, i.check = cid := by
  intro i hi
  unfold enumIssue at hi
  split at hi
  · exact absurd hi (List.not_mem_nil i)
  · split at hi
    · exact absurd hi (List.not_mem_nil i)
    · rw [List.mem_singleton] at hi
      subst hi
      rfl

theorem requiredFieldIssues_check (fm : Fm) :
    ∀ i ∈ requiredFieldIssues fm, i.check = "frontmatter_required_fields" := by
  intro i hi
  unfold requiredFieldIssues at hi
  split at hi
  · exact absurd hi (List.not_mem_nil i)
  · rw [List.mem_singleton] at hi
    subst hi
    rfl

theorem confidenceIssues_check (fm : Fm) :
    ∀ i ∈ confidenceIssues fm, i.check = "frontmatter_confidence" := by
  intro i hi
  unfold confidenceIssues at hi
  split at hi
  · exact absurd hi (List.not_mem_nil i)
  · split at hi
    · exact absurd hi (List.not_mem_nil i)
    · rw [List.mem_singleton] at hi
      subst hi
      rfl

theorem dateIssues_check (fm : Fm) :
    ∀ i ∈ dateIssues fm, i.check = "frontmatter_date" := by
  intro i hi
  unfold dateIssues at hi
  split at hi
  · exact absurd hi (List.not_mem_nil i)
  · split at hi
    · exact absurd hi (List.not_mem_nil i)
    · rw [List.mem_singleton] at hi
      subst hi
      rfl

theorem tagsIssues_check (fm : Fm) :
    ∀ i ∈ tagsIssues fm, i.check = "frontmatter_tags" := by
  intro i hi
  unfold tagsIssues at hi
  split at hi
  · exact absurd hi (List.not_mem_nil i)
  · split at hi
    · rw [List.mem_singleton] at hi
      subst hi
      rfl
    · exact absurd hi (List.not_mem_nil i)
  · rw [List.mem_singleton] at hi
    subst hi
    rfl

theorem frontmatterFieldIssues_not_h1 (fm : Fm) :
    ∀ i ∈ frontmatterFieldIssues fm, i.check ≠ "frontmatter_h1_before" := by
  intro i hi
  unfold frontmatterFieldIssues at hi
  simp only [List.mem_append] at hi
  rcases hi with ((((((h | h) | h) | h) | h) | h) | h) | h
  · rw [requiredFieldIssues_check fm i h]
    decide
  · rw [enumIssue_check fm _ _ _ i h]
    decide
  · rw [enumIssue_check fm _ _ _ i h]
    decide
  · rw [enumIssue_check fm _ _ _ i h]
    decide
  · rw [enumIssue_check fm _ _ _ i h]
    decide
  · rw [confidenceIssues_check fm i h]
    decide
  · rw [dateIssues_check fm i h]
    decide
  · rw [tagsIssues_check fm i h]
    decide

theorem firstLine_not_h1_of_dashes {content : List Char}
    (h : (pyStr "---").isPrefixOf content = true) :
    (pyStr "# ").isPrefixOf (firstLine content) = false := by
  obtain ⟨u, hu⟩ := List.isPrefixOf_iff_prefix.mp h
  subst hu
  simp [firstLine, pyStr, List.takeWhile, isLineBreak, List.isPrefixOf]

theorem isH2_not_blank {l : List Char} (h : isH2 l = true) : isBlank l = false := by
  unfold isH2 at h
  split at h
  · have hp : py_isspace '#' = false := by decide
    simp [isBlank, List.all_cons, hp]
  · exact absurd h (by simp)

theorem blank_not_isH2 {l : List Char} (h : isBlank l = true) : isH2 l = false := by
  cases hh : isH2 l
  · rfl
  · rw [isH2_not_blank hh] at h
    exact absurd h (by simp)

theorem isH2_startsHash {l : List Char} (h : isH2 l = true) : startsHash l = true := by
  unfold isH2 at h
  split at h
  · rfl
  · exact absurd h (by simp)

theorem removeRec_of_all_blank {ls : List (List Char)}
    (h : ls.find? (fun x => !(isBlank x)) = none) : removeRec ls = ls := by
  induction ls with
  | nil => rfl
  | cons l rest ih =>
    rw [List.find?_eq_none] at h
    have hl : isBlank l = true := by
      have := h l (List.mem_cons_self l rest)
      simpa using this
    have hrest : rest.find? (fun x => !(isBlank x)) = none := by
      rw [List.find?_eq_none]
      intro x hx
      exact h x (List.mem_cons_of_mem l hx)
    have hcond : condRemove l rest = false := by
      simp [condRemove, hrest]
    simp [removeRec, hcond, ih hrest]

theorem find?_removeRec_not_H2 {rest : List (List Char)} :
    ∀ {nb : List Char}, rest.find? (fun x => !(isBlank x)) = some nb → isH2 nb = false →
    (removeRec rest).find? (fun x => !(isBlank x)) = some nb := by
  induction rest with
  | nil =>
    intro nb h _
    simp at h
  | cons l t ih =>
    intro nb h hnb
    by_cases hb : isBlank l
    · have hfind : t.find? (fun x => !(isBlank x)) = some nb := by
        rwa [List.find?_cons_of_neg _ (by simp [hb])] at h
      have hcond : condRemove l t = false := by
        simp [condRemove, blank_not_isH2 hb]
      simp only [removeRec, hcond, Bool.false_eq_true, if_false]
      rw [List.find?_cons_of_neg _ (by simp [hb])]
      exact ih hfind hnb
    · have hb' : isBlank l = false := by simpa using hb
      have hl : l = nb := by
        rw [List.find?_cons_of_pos _ (by simp [hb'])] at h
        exact Option.some.inj h
      subst hl
      have hcond : condRemove l t = false := by
        simp [condRemove, hnb]
      simp only [removeRec, hcond, Bool.false_eq_true, if_false]
      rw [List.find?_cons_of_pos _ (by simp [hb'])]

theorem find?_removeRec_H2 {rest : List (List Char)} :
    ∀ {nb : List Char}, rest.find? (fun x => !(isBlank x)) = some nb → isH2 nb = true →
    ∃ nb', (removeRec rest).find? (fun x => !(isBlank x)) = some nb' ∧ isH2 nb' = true := by
  induction rest with
  | nil =>
    intro nb h _
    simp at h
  | cons l t ih =>
    intro nb h hnb
    by_cases hb : isBlank l
    · have hfind : t.find? (fun x => !(isBlank x)) = some nb := by
        rwa [List.find?_cons_of_neg _ (by simp [hb])] at h
      have hcond : condRemove l t = false := by
        simp [condRemove, blank_not_isH2 hb]
      obtain ⟨nb', h1, h2⟩ := ih hfind hnb
      refine ⟨nb', ?_, h2⟩
      simp only [removeRec, hcond, Bool.false_eq_true, if_false]
      rw [List.find?_cons_of_neg _ (by simp [hb])]
      exact h1
    · have hb' : isBlank l = false := by simpa using hb
      have hl : l = nb := by
        rw [List.find?_cons_of_pos _ (by simp [hb'])] at h
        exact Option.some.inj h
      subst hl
      rcases hft : t.find? (fun x => !(isBlank x)) with _ | m
      · have hcond : condRemove l t = false := by
          simp [condRemove, hft]
        refine ⟨l, ?_, hnb⟩
        simp only [removeRec, hcond, Bool.false_eq_true, if_false]
        rw [List.find?_cons_of_pos _ (by simp [hb'])]
      · by_cases hm : isH2 m = true
        · have hcond : condRemove l t = true := by
            simp [condRemove, hft, hnb, hm]
          obtain ⟨nb', h1, h2⟩ := ih hft hm
          refine ⟨nb', ?_, h2⟩
          simpa only [removeRec, hcond, if_true] using h1
        · have hm' : isH2 m = false := by simpa using hm
          have hcond : condRemove l t = false := by
            simp [condRemove, hft, hm']
          refine ⟨l, ?_, hnb⟩
          simp only [removeRec, hcond, Bool.false_eq_true, if_false]
          rw [List.find?_cons_of_pos _ (by simp [hb'])]

theorem condRemove_removeRec (l : List Char) (rest : List (List Char)) :
    condRemove l (removeRec rest) = condRemove l rest := by
  rcases hf : rest.find? (fun x => !(isBlank x)) with _ | nb
  · rw [removeRec_of_all_blank hf]
  · by_cases hnb : isH2 nb = true
    · obtain ⟨nb', h1, h2⟩ := find?_removeRec_H2 hf hnb
      simp [condRemove, hf, h1, hnb, h2]
    · have hnb' : isH2 nb = false := by simpa using hnb
      have h1 := find?_removeRec_not_H2 hf hnb'
      simp [condRemove, hf, h1, hnb']

theorem removeRec_idem (ls : List (List Char)) : removeRec (removeRec ls) = removeRec ls := by
  induction ls with
  | nil => rfl
  | cons l rest ih =>
    by_cases hc : condRemove l rest = true
    · simp [removeRec, hc, ih]
    · have hc' : condRemove l rest = false := by simpa using hc
      simp only [removeRec, hc', Bool.false_eq_true, if_false]
      simp only [removeRec, condRemove_removeRec, hc', Bool.false_eq_true, if_false]
      rw [ih]

theorem filter_map_succ (p : Nat → Bool) (l : List Nat) :
    (l.map (· + 1)).filter p = (l.filter (fun i => p (i + 1))).map (· + 1) := by
  induction l with
  | nil => rfl
  | cons a t ih =>
    simp only [List.map_cons, List.filter_cons]
    by_cases hp : p (a + 1)
    all_goals simp [hp, ih]

theorem removeRec_eq_filter (ls : List (List Char)) :
    removeRec ls
      = ((List.range ls.length).filter (fun i => !(emptyHeadingAt ls i))).map
          (fun i => ls.getD i []) := by
  induction ls with
  | nil => rfl
  | cons l rest ih =>
    have hsucc : ∀ i : Nat, emptyHeadingAt (l :: rest) (i + 1) = emptyHeadingAt rest i :=
      fun i => rfl
    have h0 : emptyHeadingAt (l :: rest) 0 = condRemove l rest := rfl
    rw [List.length_cons, List.range_succ_eq_map, List.filter_cons, filter_map_succ]
    have hfc : (List.range rest.length).filter
          (fun i => !(emptyHeadingAt (l :: rest) (i + 1)))
        = (List.range rest.length).filter (fun i => !(emptyHeadingAt rest i)) := by
      apply List.filter_congr
      intro i _
      rw [hsucc]
    have hmm : ((List.range rest.length).filter (fun i => !(emptyHeadingAt rest i))).map
          ((fun i => (l :: rest).getD i []) ∘ (· + 1))
        = ((List.range rest.length).filter (fun i => !(emptyHeadingAt rest i))).map
          (fun i => rest.getD i []) := by
      apply List.map_congr_left
      intro i _
      rfl
    by_cases hc : condRemove l rest = true
    · have hp : (!(emptyHeadingAt (l :: rest) 0)) = false := by
        rw [h0, hc]
        rfl
      simp only [hp, Bool.false_eq_true, if_false, List.map_map, hfc, hmm]
      rw [← ih]
      simp [removeRec, hc]
    · have hc' : condRemove l rest = false := by simpa using hc
      have hp : (!(emptyHeadingAt (l :: rest) 0)) = true := by
        rw [h0, hc']
        rfl
      simp only [hp, if_true, List.map_cons, List.map_map, hfc, hmm]
      rw [← ih]
      simp [removeRec, hc']

theorem splitNlAux_no_newline :
    ∀ (cs acc : List Char), '\n' ∉ acc → ∀ l ∈ splitNlAux cs acc, '\n' ∉ l := by
  intro cs
  induction cs with
  | nil =>
    intro acc hacc l hl
    simp only [splitNlAux, List.mem_singleton] at hl
    subst hl
    simpa using hacc
  | cons c t ih =>
    intro acc hacc l hl
    by_cases hc : c = '\n'
    · subst hc
      simp only [splitNlAux, if_pos rfl] at hl
      cases hl with
      | head => simpa using hacc
      | tail _ h1 => exact ih [] (by simp) l h1
    · simp only [splitNlAux, if_neg hc] at hl
      refine ih (c :: acc) ?_ l hl
      simp only [List.mem_cons, not_or]
      exact ⟨fun h => hc h.symm, hacc⟩

theorem splitNlAux_ne_nil (cs : List Char) : ∀ acc, splitNlAux cs acc ≠ [] := by
  induction cs with
  | nil =>
    intro acc
    simp [splitNlAux]
  | cons c t ih =>
    intro acc
    by_cases hc : c = '\n'
    · subst hc
      simp [splitNlAux]
    · simp only [splitNlAux, if_neg hc]
      exact ih _

theorem splitNlAux_append {l : List Char} (hnl : '\n' ∉ l) :
    ∀ (acc rest : List Char), splitNlAux (l ++ rest) acc = splitNlAux rest (l.reverse ++ acc) := by
  induction l with
  | nil =>
    intro acc rest
    simp
  | cons c t ih =>
    intro acc rest
    have hc : ¬ c = '\n' := by
      intro h
      subst h
      exact hnl (List.mem_cons_self _ _)
    have hnt : '\n' ∉ t := fun h => hnl (List.mem_cons_of_mem c h)
    simp only [List.cons_append, splitNlAux, if_neg hc, List.append_eq]
    rw [ih hnt (c :: acc) rest]
    simp [List.append_assoc]

theorem splitNl_joinNl :
    ∀ ls : List (List Char), ls ≠ [] → (∀ l ∈ ls, '\n' ∉ l) → splitNl (joinNl ls) = ls := by
  intro ls
  induction ls with
  | nil =>
    intro h
    exact absurd rfl h
  | cons l rest ih =>
    intro _ hnl
    cases rest with
    | nil =>
      show splitNl (joinNl [l]) = [l]
      have h1 := splitNlAux_append (hnl l (by simp)) [] []
      rw [List.append_nil] at h1
      show splitNlAux l [] = [l]
      rw [h1]
      simp [splitNlAux]
    | cons m ms =>
      show splitNl (l ++ '\n' :: joinNl (m :: ms)) = l :: m :: ms
      rw [splitNl, splitNlAux_append (hnl l (by simp)) [] ('\n' :: joinNl (m :: ms))]
      simp only [splitNlAux, eq_self_iff_true, if_true, List.append_nil, List.reverse_reverse]
      congr 1
      exact ih (by simp) (fun x hx => hnl x (List.mem_cons_of_mem l hx))

theorem removeRec_sublist (ls : List (List Char)) : (removeRec ls).Sublist ls := by
  induction ls with
  | nil => exact List.Sublist.refl _
  | cons l rest ih =>
    by_cases hc : condRemove l rest = true
    · simp only [removeRec, hc, if_true]
      exact ih.cons l
    · have hc' : condRemove l rest = false := by simpa using hc
      simp only [removeRec, hc', Bool.false_eq_true, if_false]
      exact ih.cons₂ l

theorem removeRec_ne_nil {ls : List (List Char)} (h : ls ≠ []) : removeRec ls ≠ [] := by
  induction ls with
  | nil => exact absurd rfl h
  | cons l rest ih =>
    by_cases hc : condRemove l rest = true
    · simp only [removeRec, hc, if_true]
      rcases hf : rest.find? (fun x => !(isBlank x)) with _ | nb
      · rw [condRemove, hf] at hc
        simp at hc
      · have hmem := List.mem_of_find?_eq_some hf
        exact ih (List.ne_nil_of_mem hmem)
    · have hc' : condRemove l rest = false := by simpa using hc
      simp [removeRec, hc']

theorem map_getD_range (ls : List (List Char)) :
    (List.range ls.length).map (fun i => ls.getD i []) = ls := by
  induction ls with
  | nil => rfl
  | cons l rest ih =>
    rw [List.length_cons, List.range_succ_eq_map, List.map_cons, List.map_map]
    have htail : (List.range rest.length).map ((fun i => (l :: rest).getD i []) ∘ (· + 1))
        = rest := by
      have h1 : (List.range rest.length).map ((fun i => (l :: rest).getD i []) ∘ (· + 1))
          = (List.range rest.length).map (fun i => rest.getD i []) :=
        List.map_congr_left (fun i _ => rfl)
      rw [h1, ih]
    rw [htail]
    rfl

theorem find?_first {p : List Char → Bool} :
    ∀ {l : List (List Char)} {b : List Char}, l.find? p = some b →
      ∃ as bs, l = as ++ b :: bs ∧ ∀ a ∈ as, p a = false := by
  intro l
  induction l with
  | nil =>
    intro b h
    simp at h
  | cons a t ih =>
    intro b h
    by_cases hp : p a = true
    · rw [List.find?_cons_of_pos _ hp] at h
      obtain rfl := Option.some.inj h
      exact ⟨[], t, rfl, by simp⟩
    · have hp' : p a = false := by simpa using hp
      rw [List.find?_cons_of_neg _ (by simp [hp'])] at h
      obtain ⟨as, bs, rfl, hall⟩ := ih h
      refine ⟨a :: as, bs, rfl, ?_⟩
      intro x hx
      cases hx with
      | head => exact hp'
      | tail _ hx => exact hall x hx

theorem getD_drop_add (L : List (List Char)) (m j : Nat) :
    (L.drop m).getD j [] = L.getD (m + j) [] := by
  simp [List.getD_eq_getElem?_getD, List.getElem?_drop]

theorem emptyHeadingAt_ge_length {ls : List (List Char)} {i : Nat} (h : ls.length ≤ i) :
    emptyHeadingAt ls i = false := by
  rw [emptyHeadingAt, List.getD_eq_default _ _ h]
  rfl

theorem filter_keep_all_of_removeRec_fixed {ls : List (List Char)} (hfix : removeRec ls = ls) :
    ∀ i, i < ls.length → emptyHeadingAt ls i = false := by
  have heq := removeRec_eq_filter ls
  rw [hfix] at heq
  have hlen : ((List.range ls.length).filter (fun i => !(emptyHeadingAt ls i))).length
      = ls.length := by
    have := congrArg List.length heq
    simpa using this.symm
  have hall : (List.range ls.length).filter (fun i => !(emptyHeadingAt ls i))
      = List.range ls.length :=
    (List.filter_sublist _).eq_of_length (by rw [hlen, List.length_range])
  intro i hi
  have hmem : i ∈ List.range ls.length := List.mem_range.mpr hi
  rw [← hall] at hmem
  have := (List.mem_filter.mp hmem).2
  simpa using this

theorem remove_fst (content : List Char) :
    (remove_empty_headings content).1 = joinNl (removeRec (splitNl content)) := by
  rw [remove_empty_headings, removeRec_eq_filter]

theorem removeRec_splitNl_props (content : List Char) :
    removeRec (splitNl content) ≠ [] ∧ ∀ l ∈ removeRec (splitNl content), '\n' ∉ l := by
  constructor
  · exact removeRec_ne_nil (splitNlAux_ne_nil content [])
  · intro l hl
    exact splitNlAux_no_newline content [] (by simp) l ((removeRec_sublist _).subset hl)

theorem splitNl_remove_fst (content : List Char) :
    splitNl ((remove_empty_headings content).1) = removeRec (splitNl content) := by
  rw [remove_fst]
  exact splitNl_joinNl _ (removeRec_splitNl_props content).1 (removeRec_splitNl_props content).2

/-- C1: the section splitter partitions the document: the full content is the
discarded prefix followed by each produced section preceded by exactly the one
newline consumed by the split pattern; hence the concatenation of the sections
(heading lines + bodies, in order) is a subsequence of the content with no
character of any level-2-heading-delimited region lost or duplicated, and every
section's exact text occurs verbatim in the document. -/
theorem split_sections_partition (content : List Char) :
    content = (splitParts content).headD [] ++
        ((split_into_sections content).map (fun s => '\n' :: s)).flatten
      ∧ (split_into_sections content).flatten.Sublist content
      ∧ ∀ s ∈ split_into_sections content, s <:+: content := by
  obtain ⟨h, t, hparts⟩ : ∃ h t, splitParts content = h :: t := by
    cases hp : splitParts content with
    | nil => exact absurd hp (splitPartsF_ne_nil _ _)
    | cons h t => exact ⟨h, t, rfl⟩
  have hjoin := joinParts_splitParts content
  rw [hparts] at hjoin
  have hmap : (split_into_sections content).map (fun s => '\n' :: s)
      = t.map (fun q => sectionDelim ++ q) := by
    rw [split_into_sections, hparts]
    simp only [List.tail_cons, List.map_map]
    rfl
  have hpart : content = h ++
      ((split_into_sections content).map (fun s => '\n' :: s)).flatten := by
    rw [hmap, ← hjoin]
    simp [joinParts]
  refine ⟨by rw [hparts]; exact hpart, ?_, ?_⟩
  · have hsub := (flatten_sublist_newline_flatten (split_into_sections content)).trans
      ((List.suffix_append h
        ((split_into_sections content).map (fun s => '\n' :: s)).flatten).sublist)
    rwa [← hpart] at hsub
  · intro s hs
    have h4 : ('\n' :: s) <:+:
        ((split_into_sections content).map (fun s => '\n' :: s)).flatten :=
      List.infix_of_mem_flatten (List.mem_map_of_mem _ hs)
    have h5 : s <:+: ('\n' :: s) := (List.suffix_cons '\n' s).isInfix
    have h6 := (List.suffix_append h
        ((split_into_sections content).map (fun s => '\n' :: s)).flatten).isInfix
    rw [← hpart] at h6
    exact (h5.trans h4).trans h6

/-- C2 (amended): a document with zero level-2-heading-delimited sections makes
`_check_sections` emit exactly the single `sections_exist` WARN and return at
once, skipping the per-section checks and also the two whole-document checks
(bare code block, heading hierarchy). -/
theorem no_sections_skips_all_checks (content : List Char)
    (h : split_into_sections content = []) :
    check_sections content = [sectionsExistIssue] := by
  simp [check_sections, h]

theorem no_sections_skips_all_checks_witness :
    check_sections docNoSections = [sectionsExistIssue] :=
  no_sections_skips_all_checks docNoSections (by decide)

/-- C2 counterexample: on `"# T\n#### X\n"` (zero sections, but a heading
hierarchy skip from `#` to `####`), `_check_sections` returns only the
`sections_exist` warning — no `heading_hierarchy` issue — even though the
heading-hierarchy check applied to the same document produces one, so the
whole-document checks are not applied to a zero-section document. -/
theorem no_sections_counterexample :
    check_sections docNoSections = [sectionsExistIssue]
    ∧ countCheck "heading_hierarchy" (check_sections docNoSections) = 0
    ∧ checkHeadingHierarchy docNoSections
        = [⟨.WARN, "heading_hierarchy", some 2, []⟩] :=
  ⟨by decide, by decide, by decide⟩

/-- C4: a document whose every section (heading line plus body, as one string)
is at most `MAX_SECTION_LENGTH = 1500` characters produces zero
`section_length` issues, and a document whose single section is exactly 1501
characters produces exactly one. -/
theorem section_length_rule (content : List Char) :
    ((∀ s ∈ split_into_sections content, s.length ≤ MAX_SECTION_LENGTH) →
      countCheck "section_length" (check_sections content) = 0)
    ∧ (∀ s, split_into_sections content = [s] → s.length = 1501 →
      countCheck "section_length" (check_sections content) = 1) := by
  have hgen := countCheck_check_sections "section_length"
    (fun s => decide (MAX_SECTION_LENGTH < s.length))
    (fun s => by
      rw [countCheck_section_length]
      by_cases h : MAX_SECTION_LENGTH < s.length
      all_goals simp [h])
    (by decide) (by decide) (by decide) content
  constructor
  · intro hall
    rw [hgen, List.countP_eq_zero]
    intro s hs
    have := hall s hs
    simp only [decide_eq_true_eq]
    omega
  · intro s hone hlen
    rw [hgen, hone]
    simp [List.countP_cons, hlen, MAX_SECTION_LENGTH]

theorem findSub_eq_none_of_not_mem {pat : List Char} {c : Char} (hc : c ∈ pat) :
    ∀ cs : List Char, c ∉ cs → findSub pat cs = none := by
  intro cs
  induction cs with
  | nil =>
    intro hn
    unfold findSub
    rw [if_neg]
    intro hpre
    exact (List.not_mem_nil c) (( List.isPrefixOf_iff_prefix.mp hpre).subset hc)
  | cons d t ih =>
    intro hn
    unfold findSub
    rw [if_neg, ih (fun h => hn (List.mem_cons_of_mem d h))]
    · rfl
    · intro hpre
      exact hn (( List.isPrefixOf_iff_prefix.mp hpre).subset hc)

theorem splitPartsF_of_findSub_none {fuel : Nat} {cs : List Char}
    (h : findSub sectionDelim cs = none) : splitPartsF fuel cs = [cs] := by
  cases fuel with
  | zero => rfl
  | succ n => simp [splitPartsF, h]

theorem splitPartsF_succ_some {fuel p : Nat} {cs : List Char}
    (h : findSub sectionDelim cs = some p) :
    splitPartsF (fuel + 1) cs = cs.take p :: splitPartsF fuel (cs.drop (p + 4)) := by
  simp [splitPartsF, h]

theorem splitParts_docLongSection :
    splitParts docLongSection = [pyStr "intro", 'T' :: '\n' :: List.replicate 1496 'a'] := by
  have hfuel : docLongSection.length = 1507 := by
    simp [docLongSection, pyStr]
  have hfind : findSub sectionDelim docLongSection = some 5 := by decide
  have hassoc : docLongSection
      = (pyStr "intro" ++ ['\n', '#', '#', ' ']) ++ ('T' :: '\n' :: List.replicate 1496 'a') := by
    simp [docLongSection, pyStr]
  have hnone : findSub sectionDelim ('T' :: '\n' :: List.replicate 1496 'a') = none := by
    refine findSub_eq_none_of_not_mem (c := '#') (by decide) _ ?_
    intro hmem
    rcases List.mem_cons.mp hmem with h1 | hmem
    · exact absurd h1 (by decide)
    · rcases List.mem_cons.mp hmem with h2 | hmem
      · exact absurd h2 (by decide)
      · exact absurd (List.eq_of_mem_replicate hmem) (by decide)
  rw [splitParts, hfuel, show (1507 : Nat) = 1506 + 1 from rfl,
    splitPartsF_succ_some hfind]
  rw [show docLongSection.take 5 = pyStr "intro" by
        rw [hassoc]
        rw [List.take_append_of_le_length (by simp [pyStr])]
        decide,
      show docLongSection.drop (5 + 4) = 'T' :: '\n' :: List.replicate 1496 'a' by
        rw [hassoc]
        exact List.drop_left' (by simp [pyStr])]
  rw [splitPartsF_of_findSub_none hnone]

theorem split_into_sections_docLongSection :
    split_into_sections docLongSection = [sectionLong] := by
  rw [split_into_sections, splitParts_docLongSection]
  rfl

theorem section_length_rule_witness :
    countCheck "section_length" (check_sections docShortSections) = 0
    ∧ countCheck "section_length" (check_sections docLongSection) = 1 :=
  ⟨(section_length_rule docShortSections).1 (by decide),
   (section_length_rule docLongSection).2 sectionLong split_into_sections_docLongSection
     (by simp [sectionLong])⟩

/-- C5: the heading-hierarchy warnings are exactly one per heading whose level
exceeds the previous heading's level plus one (previous level seeded at 1 and
updated after every heading); the heading sequence `#`, `##`, `####` produces
exactly one `heading_hierarchy` WARN and `#`, `##`, `###`, `####` produces
none. -/
theorem heading_hierarchy_rule :
    (∀ content, (checkHeadingHierarchy content).length
        = countSkips 1 (headingLevels content))
    ∧ countCheck "heading_hierarchy" (check_sections docSkipLevel) = 1
    ∧ countCheck "heading_hierarchy" (check_sections docNoSkip) = 0 := by
  refine ⟨?_, by decide, by decide⟩
  intro content
  rw [checkHeadingHierarchy, List.length_map, headingLevels]
  exact hierAux_length _ 1 1

/-- C6: a `section_pronoun` FAIL is emitted exactly for the sections whose
(stripped) first non-empty body line matches the case-sensitive anchored
pattern "one of It/This/These/They/That/We followed by whitespace": one FAIL
for a section starting "This is a test.", none for "The test covers...", and
the pattern itself is case-sensitive and requires the trailing whitespace. -/
theorem section_pronoun_rule :
    (∀ content, countCheck "section_pronoun" (check_sections content)
        = (split_into_sections content).countP sectionPronounFlag)
    ∧ countCheck "section_pronoun" (check_sections docPronounHit) = 1
    ∧ countCheck "section_pronoun" (check_sections docPronounMiss) = 0
    ∧ pronounMatch (pyStr "This is a test.") = true
    ∧ pronounMatch (pyStr "The test covers everything.") = false
    ∧ pronounMatch (pyStr "this is lowercase") = false
    ∧ pronounMatch (pyStr "Thistle grows") = false := by
  refine ⟨?_, by decide, by decide, by decide, by decide, by decide, by decide⟩
  intro content
  exact countCheck_check_sections "section_pronoun" sectionPronounFlag
    (fun s => countCheck_section_pronoun s) (by decide) (by decide) (by decide) content

/-- C3 (code bug): the H1-before-frontmatter check is unreachable — it is
guarded behind `content.startswith('---')`, which is false for every document
whose first line is a level-1 heading, so no document can ever receive a
`frontmatter_h1_before` issue; a document starting with an H1 instead fails
fast with the generic `frontmatter_start` identifier. -/
theorem h1_before_frontmatter_shadowed :
    (∀ (parseYaml : List Char → Option Fm) (content : List Char),
      ∀ i ∈ check_frontmatter parseYaml content, i.check ≠ "frontmatter_h1_before")
    ∧ ∀ parseYaml : List Char → Option Fm,
      check_frontmatter parseYaml (pyStr "# Title\nBody\n")
        = [⟨.FAIL, "frontmatter_start", some 1, []⟩] := by
  constructor
  · intro parseYaml content i hi
    unfold check_frontmatter at hi
    by_cases hstart : (pyStr "---").isPrefixOf content
    · rw [if_pos hstart, if_neg (by rw [firstLine_not_h1_of_dashes hstart]; simp)] at hi
      rcases hfind : findFrom3 content with _ | d
      · simp only [hfind] at hi
        simp only [List.mem_singleton] at hi
        subst hi
        decide
      · simp only [hfind] at hi
        rcases hparse : parseYaml (pyStrip ((content.drop 3).take (d - 3))) with _ | fm
        · simp only [hparse] at hi
          simp only [List.mem_singleton] at hi
          subst hi
          decide
        · simp only [hparse] at hi
          exact frontmatterFieldIssues_not_h1 fm i hi
    · rw [if_neg hstart] at hi
      simp only [List.mem_singleton] at hi
      subst hi
      decide
  · intro parseYaml
    rfl

theorem h1_before_frontmatter_shadowed_witness :
    (⟨Lv.FAIL, "frontmatter_start", some 1, []⟩ : Issue).check ≠ "frontmatter_h1_before" :=
  h1_before_frontmatter_shadowed.1 (fun _ => none) (pyStr "# Title\nBody\n")
    ⟨Lv.FAIL, "frontmatter_start", some 1, []⟩
    (by rw [h1_before_frontmatter_shadowed.2 (fun _ => none)]; exact List.mem_singleton_self _)

/-- C7: once frontmatter parses to a mapping, `_check_frontmatter` runs all
schema checks independently and additively in one pass (the result is the
concatenation of the eight per-field check results), and on a frontmatter
missing `tags` with `stack: invalid-value` and every other required key valid
it produces exactly two FAILs: `frontmatter_required_fields` mentioning `tags`,
and `frontmatter_stack`. -/
theorem frontmatter_schema_additive (parseYaml : List Char → Option Fm)
    (content : List Char) (d : Nat) (fm : Fm)
    (h1 : (pyStr "---").isPrefixOf content = true)
    (h2 : findFrom3 content = some d)
    (h3 : parseYaml (pyStrip ((content.drop 3).take (d - 3))) = some fm) :
    check_frontmatter parseYaml content = frontmatterFieldIssues fm
    ∧ (∀ fm' : Fm, frontmatterFieldIssues fm'
        = requiredFieldIssues fm'
          ++ enumIssue fm' "stack" VALID_STACKS "frontmatter_stack"
          ++ enumIssue fm' "priority" VALID_PRIORITIES "frontmatter_priority"
          ++ enumIssue fm' "audience" VALID_AUDIENCES "frontmatter_audience"
          ++ enumIssue fm' "complexity" VALID_COMPLEXITIES "frontmatter_complexity"
          ++ confidenceIssues fm' ++ dateIssues fm' ++ tagsIssues fm')
    ∧ frontmatterFieldIssues fmMissingTagsBadStack
        = [⟨.FAIL, "frontmatter_required_fields", none, ["tags"]⟩,
           ⟨.FAIL, "frontmatter_stack", none, ["invalid-value"]⟩]
    ∧ "tags" ∈ ((frontmatterFieldIssues fmMissingTagsBadStack).headD
        ⟨.FAIL, "", none, []⟩).data := by
  refine ⟨?_, fun fm' => by simp [frontmatterFieldIssues, List.append_assoc], by decide, by decide⟩
  unfold check_frontmatter
  rw [if_pos h1, if_neg (by rw [firstLine_not_h1_of_dashes h1]; simp)]
  simp only [h2, h3]

theorem frontmatter_schema_additive_witness :
    check_frontmatter parseFmOracle docFm
      = [⟨.FAIL, "frontmatter_required_fields", none, ["tags"]⟩,
         ⟨.FAIL, "frontmatter_stack", none, ["invalid-value"]⟩] := by
  have h := frontmatter_schema_additive parseFmOracle docFm 7 fmMissingTagsBadStack
    (by decide) (by decide) (by decide)
  rw [h.1, h.2.2.1]

/-- C8: the heading-cleanup transform is idempotent — applying
`remove_empty_headings` to its own output returns identical text and a removal
count of zero on the second pass — and it never removes a `## ` heading that is
followed by some non-heading, non-blank line before the next `## ` heading. -/
theorem remove_empty_headings_idempotent (content : List Char) :
    (remove_empty_headings ((remove_empty_headings content).1)).1
        = (remove_empty_headings content).1
    ∧ (remove_empty_headings ((remove_empty_headings content).1)).2 = 0
    ∧ ∀ i m : Nat, i < m → m < (splitNl content).length →
        isBlank ((splitNl content).getD m []) = false →
        startsHash ((splitNl content).getD m []) = false →
        (∀ k, i < k → k < m → isH2 ((splitNl content).getD k []) = false) →
        emptyHeadingAt (splitNl content) i = false := by
  have hlines2 := splitNl_remove_fst content
  have hidem : removeRec (removeRec (splitNl content)) = removeRec (splitNl content) :=
    removeRec_idem _
  refine ⟨?_, ?_, ?_⟩
  · rw [remove_fst ((remove_empty_headings content).1), hlines2, hidem, ← remove_fst]
  · show ((List.range (splitNl ((remove_empty_headings content).1)).length).filter
        (fun i => emptyHeadingAt (splitNl ((remove_empty_headings content).1)) i)).length = 0
    rw [hlines2]
    have hzero : ∀ i ∈ List.range (removeRec (splitNl content)).length,
        ¬ ((fun i => emptyHeadingAt (removeRec (splitNl content)) i) i = true) := by
      intro i hi
      simp [filter_keep_all_of_removeRec_fixed hidem i (List.mem_range.mp hi)]
    rw [List.filter_eq_nil_iff.mpr hzero]
    rfl
  · intro i m him hm hblank hhash hbetween
    rw [emptyHeadingAt]
    rcases hf : ((splitNl content).drop (i + 1)).find? (fun x => !(isBlank x)) with _ | nb
    · simp [condRemove, hf]
    · obtain ⟨as, bs, hsplit, hall⟩ := find?_first hf
      have hnbpos : (splitNl content).getD (i + 1 + as.length) [] = nb := by
        rw [← getD_drop_add, hsplit, List.getD_eq_getElem?_getD,
          List.getElem?_append_right (Nat.le_refl _)]
        simp
      have hge : as.length ≤ m - (i + 1) := by
        by_contra hlt
        push_neg at hlt
        have hmem : ((splitNl content).drop (i + 1)).getD (m - (i + 1)) [] ∈ as := by
          rw [hsplit, List.getD_eq_getElem?_getD, List.getElem?_append_left hlt,
            List.getElem?_eq_getElem hlt]
          simp only [Option.getD_some]
          exact List.getElem_mem hlt
        have hbl := hall _ hmem
        rw [getD_drop_add] at hbl
        rw [show i + 1 + (m - (i + 1)) = m by omega] at hbl
        rw [hblank] at hbl
        exact absurd hbl (by simp)
      have hnb : isH2 nb = false := by
        rcases Nat.lt_or_ge (i + 1 + as.length) m with hlt | hge2
        · rw [← hnbpos]
          exact hbetween _ (by omega) hlt
        · have heq : i + 1 + as.length = m := by omega
          rw [← hnbpos, heq]
          cases hsh : isH2 ((splitNl content).getD m []) with
          | false => rfl
          | true =>
            rw [isH2_startsHash hsh] at hhash
            exact absurd hhash (by simp)
      simp [condRemove, hf, hnb]

theorem remove_empty_headings_idempotent_witness :
    (remove_empty_headings ((remove_empty_headings docKeptHeading).1)).1
        = (remove_empty_headings docKeptHeading).1
    ∧ emptyHeadingAt (splitNl docKeptHeading) 0 = false :=
  ⟨(remove_empty_headings_idempotent docKeptHeading).1,
   (remove_empty_headings_idempotent docKeptHeading).2.2 0 1 (by decide) (by decide)
     (by decide) (by decide) (fun k hk hk1 => absurd hk1 (by omega))⟩

/-- C9: a `## ` heading followed only by blank lines (or nothing) up to end of
file is not classified as empty: `remove_empty_headings` keeps the line and
`find_empty_headings` does not report it — the look-ahead only classifies a
heading as empty when a further `## ` heading is actually reached. -/
theorem trailing_heading_kept (content : List Char) (i : Nat)
    (hH2 : isH2 ((splitNl content).getD i []) = true)
    (hblanks : ∀ l ∈ (splitNl content).drop (i + 1), isBlank l = true) :
    emptyHeadingAt (splitNl content) i = false
    ∧ ((splitNl content).getD i []) ∈ splitNl ((remove_empty_headings content).1)
    ∧ ∀ p ∈ find_empty_headings content, p.1 ≠ i + 1 := by
  have hf : ((splitNl content).drop (i + 1)).find? (fun x => !(isBlank x)) = none := by
    rw [List.find?_eq_none]
    intro x hx
    simp [hblanks x hx]
  have hempty : emptyHeadingAt (splitNl content) i = false := by
    simp [emptyHeadingAt, condRemove, hf]
  have hlen : i < (splitNl content).length := by
    by_contra hge
    push_neg at hge
    rw [List.getD_eq_default _ _ hge] at hH2
    exact absurd hH2 (by decide)
  refine ⟨hempty, ?_, ?_⟩
  · rw [splitNl_remove_fst, removeRec_eq_filter]
    refine List.mem_map.mpr ⟨i, ?_, rfl⟩
    refine List.mem_filter.mpr ⟨List.mem_range.mpr hlen, ?_⟩
    simp [hempty]
  · intro p hp
    obtain ⟨j, hj, rfl⟩ := List.mem_map.mp hp
    have hjp := (List.mem_filter.mp hj).2
    intro hcontra
    simp only at hcontra
    have hji : j = i := by omega
    subst hji
    rw [hempty] at hjp
    exact absurd hjp (by simp)

theorem trailing_heading_kept_witness :
    emptyHeadingAt (splitNl docTrailingHeading) 1 = false
    ∧ ((splitNl docTrailingHeading).getD 1 [])
        ∈ splitNl ((remove_empty_headings docTrailingHeading).1) :=
  ⟨(trailing_heading_kept docTrailingHeading 1 (by decide) (by decide)).1,
   (trailing_heading_kept docTrailingHeading 1 (by decide) (by decide)).2.1⟩

/-- C10: `find_empty_headings` and `remove_empty_headings` agree — the same
per-index look-ahead drives both, so the reported empty-heading count equals
the returned removed count, the reported texts are exactly the removed lines,
and the output text is the join of exactly the unreported lines. -/
theorem find_remove_agree (content : List Char) :
    (find_empty_headings content).length = (remove_empty_headings content).2
    ∧ (find_empty_headings content).map Prod.snd
        = ((List.range (splitNl content).length).filter
            (fun i => emptyHeadingAt (splitNl content) i)).map
            (fun i => (splitNl content).getD i [])
    ∧ (remove_empty_headings content).1
        = joinNl (((List.range (splitNl content).length).filter
            (fun i => !(emptyHeadingAt (splitNl content) i))).map
            (fun i => (splitNl content).getD i [])) := by
  refine ⟨?_, ?_, rfl⟩
  · simp [find_empty_headings, remove_empty_headings]
  · rw [find_empty_headings, List.map_map]
    rfl

theorem split_sections_partition_witness :
    (pyStr "## Alpha\nThis is a test.\n") <:+: docPronounHit :=
  (split_sections_partition docPronounHit).2.2 (pyStr "## Alpha\nThis is a test.\n") (by decide)
